import Mathlib

/-!
Verification development for the "cria-hiperlinks" reference-matching engine.

The embedding models the matching and classification core (services/matcher.ts),
the reconciliation and session-migration logic (App.tsx) and the Excel cell
writer (services/excelHelper.ts).  JavaScript numbers are modelled as exact
rationals (ℚ); JavaScript string/regex primitives are modelled character by
character on `List Char`.  Unicode-dependent operations (`toLowerCase`,
`normalize("NFD")`) are modelled on the Basic Latin and Latin-1 letter range,
which covers every character this development evaluates them on.
-/

/-! ## Character-level primitives (models of the JS string operations) -/

/-- Model of JavaScript `toLowerCase` on the Basic Latin and Latin-1 letter
range: `A`–`Z` and `À`–`Þ` (except the multiplication sign `×`) shift by 32;
every other character is unchanged. -/
def jsToLower (c : Char) : Char :=
  if 'A' ≤ c ∧ c ≤ 'Z' then Char.ofNat (c.toNat + 32)
  else if 0xC0 ≤ c.toNat ∧ c.toNat ≤ 0xDE ∧ c.toNat ≠ 0xD7 then Char.ofNat (c.toNat + 32)
  else c

/-- The JS regex `\w` character class: `[A-Za-z0-9_]` (ASCII only). -/
def isWordCharJS (c : Char) : Bool :=
  c.isLower || c.isUpper || c.isDigit || c == '_'

/-- ASCII alphanumeric characters: what survives the `[\W_]` replacement. -/
def isAsciiAlnum (c : Char) : Bool :=
  c.isLower || c.isUpper || c.isDigit

/-- Combining diacritical marks `U+0300`–`U+036F`, removed by the
`replace(/[̀-ͯ]/g, "")` step of `tokenize`. -/
def isCombiningMark (c : Char) : Bool :=
  0x300 ≤ c.toNat && c.toNat ≤ 0x36F

/-- Model of Unicode NFD decomposition on the Latin-1 lower-case letters used
by this development (the input is already lower-cased when the source applies
`normalize("NFD")`); characters outside the table decompose to themselves. -/
def nfdDecompose (c : Char) : List Char :=
  match c with
  | 'à' => ['a', Char.ofNat 0x300]
  | 'á' => ['a', Char.ofNat 0x301]
  | 'â' => ['a', Char.ofNat 0x302]
  | 'ã' => ['a', Char.ofNat 0x303]
  | 'ä' => ['a', Char.ofNat 0x308]
  | 'å' => ['a', Char.ofNat 0x30A]
  | 'ç' => ['c', Char.ofNat 0x327]
  | 'è' => ['e', Char.ofNat 0x300]
  | 'é' => ['e', Char.ofNat 0x301]
  | 'ê' => ['e', Char.ofNat 0x302]
  | 'ë' => ['e', Char.ofNat 0x308]
  | 'ì' => ['i', Char.ofNat 0x300]
  | 'í' => ['i', Char.ofNat 0x301]
  | 'î' => ['i', Char.ofNat 0x302]
  | 'ï' => ['i', Char.ofNat 0x308]
  | 'ñ' => ['n', Char.ofNat 0x303]
  | 'ò' => ['o', Char.ofNat 0x300]
  | 'ó' => ['o', Char.ofNat 0x301]
  | 'ô' => ['o', Char.ofNat 0x302]
  | 'õ' => ['o', Char.ofNat 0x303]
  | 'ö' => ['o', Char.ofNat 0x308]
  | 'ù' => ['u', Char.ofNat 0x300]
  | 'ú' => ['u', Char.ofNat 0x301]
  | 'û' => ['u', Char.ofNat 0x302]
  | 'ü' => ['u', Char.ofNat 0x308]
  | 'ý' => ['y', Char.ofNat 0x301]
  | _ => [c]

/-- `normalize("NFD").replace(/[̀-ͯ]/g, "")`: decompose, then drop
the combining marks. -/
def nfdStrip (l : List Char) : List Char :=
  (l.flatMap nfdDecompose).filter (fun c => !(isCombiningMark c))

/-- Does `sub` occur at the start of `hay`? (element-wise, like array prefix
comparison). -/
def startsWithChars : List Char → List Char → Bool
  | [], _ => true
  | _ :: _, [] => false
  | a :: as, b :: bs => a == b && startsWithChars as bs

/-- Model of JavaScript `String.prototype.includes`: `sub` occurs as a
contiguous substring of `hay`. -/
def containsSub (sub : List Char) : List Char → Bool
  | [] => startsWithChars sub []
  | c :: t => startsWithChars sub (c :: t) || containsSub sub t

/-- Model of JavaScript `split` on a single-character class: cut at every
character satisfying `p`, keeping empty segments.  Always returns at least one
segment. -/
def jsSplitChars (p : Char → Bool) : List Char → List (List Char)
  | [] => [[]]
  | c :: rest =>
    if p c then [] :: jsSplitChars p rest
    else
      match jsSplitChars p rest with
      | [] => [[c]]
      | seg :: segs => (c :: seg) :: segs

/-- `str.toLowerCase()` on whole strings. -/
def toLowerJS (s : String) : String :=
  ⟨s.data.map jsToLower⟩

/-- `str.replace(/[^0-9]/g, '')`: keep only the decimal digits. -/
def digitsOf (s : String) : List Char :=
  s.data.filter Char.isDigit

/-! ## Data model (types.ts) -/

/-- `FileNode` of types.ts.  The non-serializable browser `File` handle
(`fileObject`) is modelled as an opaque `Nat`, optional exactly as in the
source. -/
structure FileNode where
  name : String
  path : String
  lastModified : Nat
  fileObject : Option Nat
deriving DecidableEq

/-- `matchStatus` union type of `AnalysisResult`. -/
inductive MatchStatus where
  | FOUND
  | NOT_FOUND
  | AMBIGUOUS
  | NO_QUERY
deriving DecidableEq

/-- `AnalysisResult` of types.ts.  `manualResolution` is the legacy singular
field that may still be present in a deserialized session (it is absent from
the TS interface but read by `handleLoadProject`). -/
structure AnalysisResult where
  rowId : Nat
  originalContent : String
  targetFolder : Option String
  extractedQueries : List String
  extractedDates : List String
  matchStatus : MatchStatus
  matchedFile : Option FileNode
  candidates : Option (List FileNode)
  aiSuggestion : Option String
  manualResolutions : Option (List FileNode)
  isIgnored : Bool
  manualResolution : Option FileNode
deriving DecidableEq

/-- Return shape of `findBestMatch`: a status plus the optional payload the
source attaches to it (`file` for FOUND, `candidates` for AMBIGUOUS). -/
inductive MatchResult where
  | noQuery
  | notFound
  | found (file : FileNode)
  | ambiguous (candidates : List FileNode)
deriving DecidableEq

/-- Scored candidate `{ file: FileNode, score: number }` of `findBestMatch`. -/
structure Candidate where
  file : FileNode
  score : ℚ
deriving DecidableEq

/-! ## Metadata extraction (matcher.ts, `extractMetadata`) -/

/-- Opening quote class of `QUOTE_REGEX`: `["“]`. -/
def isQuoteOpener (c : Char) : Bool :=
  c == '"' || c == '“'

/-- Closing quote class of `QUOTE_REGEX`: `["”]` (also the negated content
class `[^"”]`). -/
def isQuoteCloser (c : Char) : Bool :=
  c == '"' || c == '”'

/-- Global scan of `QUOTE_REGEX = /["“]([^"”]+)["”]/g`: at each position, a
match is an opener followed by a non-empty run of non-closer characters
followed by a closer (the greedy `+` cannot backtrack usefully because every
shortened run still ends in a non-closer).  On success the scan resumes after
the closing quote; on failure it advances one character.  The fuel argument
(initially the length of the text) bounds the recursion; every step consumes
at least one character, so the initial fuel is never exhausted. -/
def scanQuotesAux : Nat → List Char → List (List Char)
  | 0, _ => []
  | _ + 1, [] => []
  | fuel + 1, c :: rest =>
    if isQuoteOpener c then
      match rest.dropWhile (fun x => !(isQuoteCloser x)),
            rest.takeWhile (fun x => !(isQuoteCloser x)) with
      | _ :: after, run@(_ :: _) => run :: scanQuotesAux fuel after
      | _, _ => scanQuotesAux fuel rest
    else scanQuotesAux fuel rest

/-- All capture groups produced by repeatedly executing `QUOTE_REGEX`. -/
def scanQuotes (l : List Char) : List (List Char) :=
  scanQuotesAux l.length l

/-- The date separator class `[\/\-\.]` of `DATE_REGEX`. -/
def isDateSepRegex (c : Char) : Bool :=
  c == '/' || c == '-' || c == '.'

/-- Consume exactly `n` digits. -/
def takeExactDigits : Nat → List Char → Option (List Char × List Char)
  | 0, l => some ([], l)
  | _ + 1, [] => none
  | n + 1, c :: rest =>
    if c.isDigit then
      match takeExactDigits n rest with
      | some (ds, r) => some (c :: ds, r)
      | none => none
    else none

/-- Consume one date separator. -/
def takeSep : List Char → Option (Char × List Char)
  | [] => none
  | c :: rest => if isDateSepRegex c then some (c, rest) else none

/-- The trailing `\b` of `DATE_REGEX`: the matched text ends in a digit, so the
boundary holds exactly when the next character is absent or a non-word
character. -/
def boundaryAfter : List Char → Bool
  | [] => true
  | c :: _ => !(isWordCharJS c)

/-- One backtracking attempt of the first `DATE_REGEX` alternative
`\b(\d{1,2})[\/\-\.](\d{1,2})[\/\-\.](\d{4})\b` with the two `\d{1,2}` groups
fixed to `n1` and `n2` digits. -/
def dateAlt1Try (n1 n2 : Nat) (l : List Char) : Option (List Char × List Char) := do
  let (d1, r1) ← takeExactDigits n1 l
  let (s1, r2) ← takeSep r1
  let (d2, r3) ← takeExactDigits n2 r2
  let (s2, r4) ← takeSep r3
  let (y, r5) ← takeExactDigits 4 r4
  if boundaryAfter r5 then some (d1 ++ s1 :: d2 ++ s2 :: y, r5) else none

/-- One backtracking attempt of the second `DATE_REGEX` alternative
`\b(\d{4})[\/\-\.](\d{1,2})[\/\-\.](\d{1,2})\b`. -/
def dateAlt2Try (n1 n2 : Nat) (l : List Char) : Option (List Char × List Char) := do
  let (y, r1) ← takeExactDigits 4 l
  let (s1, r2) ← takeSep r1
  let (d1, r3) ← takeExactDigits n1 r2
  let (s2, r4) ← takeSep r3
  let (d2, r5) ← takeExactDigits n2 r4
  if boundaryAfter r5 then some (y ++ s1 :: d1 ++ s2 :: d2, r5) else none

/-- Try `DATE_REGEX` at one position, in the engine's backtracking order:
first alternative before second, greedy `\d{1,2}` groups trying two digits
before one, leftmost group varying last. -/
def dateMatchAt (l : List Char) : Option (List Char × List Char) :=
  (dateAlt1Try 2 2 l).orElse fun _ =>
  (dateAlt1Try 2 1 l).orElse fun _ =>
  (dateAlt1Try 1 2 l).orElse fun _ =>
  (dateAlt1Try 1 1 l).orElse fun _ =>
  (dateAlt2Try 2 2 l).orElse fun _ =>
  (dateAlt2Try 2 1 l).orElse fun _ =>
  (dateAlt2Try 1 2 l).orElse fun _ =>
  dateAlt2Try 1 1 l

/-- Global scan of `DATE_REGEX`.  `prevWord` tracks whether the previous
character is a word character, deciding the leading `\b` (the match starts
with a digit, a word character).  After a match the scan resumes right after
the matched text, whose final character is a digit, hence a word character.
Fuel as in `scanQuotesAux`. -/
def scanDatesAux : Nat → Bool → List Char → List (List Char)
  | 0, _, _ => []
  | _ + 1, _, [] => []
  | fuel + 1, prevWord, c :: rest =>
    if prevWord then scanDatesAux fuel (isWordCharJS c) rest
    else
      match dateMatchAt (c :: rest) with
      | some (m, r) => m :: scanDatesAux fuel true r
      | none => scanDatesAux fuel (isWordCharJS c) rest

/-- All matches of `DATE_REGEX` over the text. -/
def scanDates (l : List Char) : List (List Char) :=
  scanDatesAux l.length false l

/-- Return value of `extractMetadata`. -/
structure ExtractedMeta where
  queries : List String
  dates : List String
deriving DecidableEq

/-- Model of JavaScript `String.prototype.trim`: drop leading and trailing
whitespace. -/
def trimChars (l : List Char) : List Char :=
  ((l.dropWhile Char.isWhitespace).reverse.dropWhile Char.isWhitespace).reverse

/-- `extractMetadata` of matcher.ts: dates are every `DATE_REGEX` match;
queries are every `QUOTE_REGEX` capture, trimmed, with empty trims dropped.
There is deliberately no fallback when no quote is found. -/
def extractMetadata (cellContent : String) : ExtractedMeta :=
  let dates := (scanDates cellContent.data).map List.asString
  let queries :=
    ((scanQuotes cellContent.data).map (fun l => List.asString (trimChars l))).filter
      (fun q => q.length > 0)
  ⟨queries, dates⟩

/-! ## Date permutations (matcher.ts, `getDatePermutations`) -/

/-- The split class `[\/\-\.\s]` of `getDatePermutations`. -/
def isDateSplitChar (c : Char) : Bool :=
  c == '/' || c == '-' || c == '.' || c.isWhitespace

/-- JavaScript `padStart(2, '0')`. -/
def padStart2 (s : String) : String :=
  if s.length < 2 then ⟨List.replicate (2 - s.length) '0' ++ s.data⟩ else s

/-- The non-empty segments `cleanParts` of `getDatePermutations`. -/
def dateCleanParts (dateStr : String) : List String :=
  ((jsSplitChars isDateSplitChar dateStr.data).map List.asString).filter
    (fun p => p.length > 0)

/-- `getDatePermutations` of matcher.ts: split on `[\/\-\.\s]`, drop empty
parts; with exactly three parts, guess year-first when the first part has four
characters (day-first otherwise), pad day and month to two characters, and
emit the fixed variant list; otherwise return the input unchanged. -/
def getDatePermutations (dateStr : String) : List String :=
  match dateCleanParts dateStr with
  | [p1, p2, p3] =>
    let dmy := if p1.length = 4 then (p3, p2, p1) else (p1, p2, p3)
    let day := padStart2 dmy.1
    let month := padStart2 dmy.2.1
    let year := dmy.2.2
    [day ++ month ++ year,
     year ++ month ++ day,
     day ++ "-" ++ month ++ "-" ++ year,
     year ++ "-" ++ month ++ "-" ++ day,
     year ++ "_" ++ month ++ "_" ++ day,
     year ++ "." ++ month ++ "." ++ day,
     day ++ "_" ++ month ++ "_" ++ year,
     day ++ "." ++ month ++ "." ++ year,
     day ++ " " ++ month ++ " " ++ year]
  | _ => [dateStr]

/-! ## Tokenizer (matcher.ts, `tokenize` and `IGNORED_TOKENS`) -/

/-- The stop-word set `IGNORED_TOKENS` of matcher.ts. -/
def IGNORED_TOKENS : List String :=
  ["fw", "fwd", "re", "enc", "tr", "subject", "assunto", "encaminhado", "copy", "copia",
   "de", "do", "da", "dos", "das", "e", "o", "a", "os", "as", "em", "na", "no", "nas",
   "nos", "com", "para", "por",
   "of", "the", "and", "in", "at", "to", "for", "with", "by", "from"]

/-- `tokenize` of matcher.ts: lower-case, NFD-strip accents, replace runs of
`[\W_]` by a separator, split, drop empty tokens, drop stop words.  Replacing
each non-alphanumeric character by a cut point and dropping empty segments is
extensionally the source's replace-with-single-space-then-split-on-`\s+`,
since both produce exactly the maximal ASCII-alphanumeric runs. -/
def tokenize (s : String) : List String :=
  let lowered := s.data.map jsToLower
  let stripped := nfdStrip lowered
  let parts := (jsSplitChars (fun c => !(isAsciiAlnum c)) stripped).map List.asString
  (parts.filter (fun t => t.length > 0)).filter (fun t => !(IGNORED_TOKENS.contains t))

/-! ## Scoring engine (matcher.ts, body of the `findBestMatch` loops) -/

/-- Date boost (matcher.ts lines 189–200): strip non-digits from the file name
and from each date search term; boost 0.40 when some term of at least six
digits occurs inside the file name's digits. -/
def dateBoost (dateSearchTerms : List String) (fname : String) : ℚ :=
  let cleanFileName := digitsOf fname
  if dateSearchTerms.any (fun term =>
      let cleanTerm := digitsOf term
      containsSub cleanTerm cleanFileName && decide (6 ≤ cleanTerm.length))
  then 0.40 else 0

/-- `split('.').pop()`: the final dot-separated component (the whole string
when it has no dot). -/
def splitDotPop (s : String) : String :=
  ((jsSplitChars (fun c => c == '.') s.data).map List.asString).getLastD ""

/-- Extension boost (matcher.ts lines 202–210): 0.20 when the lower-cased
final dot components of query and file name are non-empty, equal, and longer
than two characters. -/
def extBoost (query fname : String) : ℚ :=
  let queryExt := toLowerJS (splitDotPop query)
  let fileExt := toLowerJS (splitDotPop fname)
  if queryExt ≠ "" ∧ fileExt ≠ "" ∧ queryExt = fileExt ∧ 2 < queryExt.length
  then 0.20 else 0

/-- `toLowerCase().replace(/[\W_]+/g, '')`: lower-case, then delete every
non-ASCII-alphanumeric character (no accent stripping here, faithful to the
source). -/
def normAlnum (s : String) : List Char :=
  (s.data.map jsToLower).filter isAsciiAlnum

/-- Exact-sequence boost (matcher.ts lines 212–219): 0.15 when the normalized
query occurs contiguously inside the normalized file name. -/
def seqBoost (query fname : String) : ℚ :=
  if containsSub (normAlnum query) (normAlnum fname) then 0.15 else 0

/-- Score of one (query, file) pair (matcher.ts lines 172–219): `none` when
the file has no tokens or the token intersection is empty, otherwise the
coverage maximum plus the three boosts. -/
def scoreFile (dateSearchTerms : List String) (query : String) (f : FileNode) : Option ℚ :=
  let queryTokens := tokenize query
  let fileTokens := tokenize f.name
  if fileTokens = [] then none
  else
    let intersection := queryTokens.filter (fun qt => fileTokens.contains qt)
    let matchCount := intersection.length
    if matchCount = 0 then none
    else
      let fileCoverage : ℚ := (matchCount : ℚ) / (fileTokens.length : ℚ)
      let queryCoverage : ℚ := (matchCount : ℚ) / (queryTokens.length : ℚ)
      let base := max fileCoverage queryCoverage
      some (base + dateBoost dateSearchTerms f.name + extBoost query f.name
              + seqBoost query f.name)

/-- The per-query candidate collection (matcher.ts lines 168–226): skip
queries with no tokens, score every file, keep scores of at least the 0.55
threshold. -/
def candidatesFor (dateSearchTerms : List String) (files : List FileNode)
    (query : String) : List Candidate :=
  if tokenize query = [] then []
  else
    files.filterMap (fun f =>
      match scoreFile dateSearchTerms query f with
      | some score => if (0.55 : ℚ) ≤ score then some ⟨f, score⟩ else none
      | none => none)

/-! ## Deduplication, sorting and classification (matcher.ts lines 228–257) -/

/-- JS `Map.set` on an existing key: replace the value in place, keeping the
key's original position. -/
def setCand : List Candidate → Candidate → List Candidate
  | [], c => [c]
  | x :: xs, c => if x.file.path == c.file.path then c :: xs else x :: setCand xs c

/-- One step of the dedup `forEach`: look the path up; insert new paths at the
end, replace an existing entry only when the new score is strictly higher. -/
def updateCand (acc : List Candidate) (c : Candidate) : List Candidate :=
  match acc.find? (fun x => x.file.path == c.file.path) with
  | none => acc ++ [c]
  | some existing => if existing.score < c.score then setCand acc c else acc

/-- The `uniqueCandidates` map of matcher.ts, as an insertion-ordered
association list keyed by `file.path`. -/
def dedupByPath (cands : List Candidate) : List Candidate :=
  cands.foldl updateCand []

/-- Stable insertion preserving descending score order: a new element goes
after every element whose score is at least its own. -/
def insertCandSorted : List Candidate → Candidate → List Candidate
  | [], c => [c]
  | x :: xs, c => if x.score < c.score then c :: x :: xs else x :: insertCandSorted xs c

/-- Model of `sort((a, b) => b.score - a.score)` — a stable descending sort
(JS `Array.prototype.sort` is stable). -/
def sortByScoreDesc (l : List Candidate) : List Candidate :=
  l.foldl insertCandSorted []

/-- Classification tail of `findBestMatch` (matcher.ts lines 240–257): empty
survivor list is NOT_FOUND; a winner (score above 1.2, or no runner-up, or a
margin of more than 0.1 over the runner-up) is FOUND; otherwise AMBIGUOUS with
the top five survivors. -/
def classifySorted : List Candidate → MatchResult
  | [] => .notFound
  | best :: rest =>
    let isWinner : Bool :=
      decide ((1.2 : ℚ) < best.score) ||
        (match rest with
         | [] => true
         | runnerUp :: _ => decide (runnerUp.score + (0.1 : ℚ) < best.score))
    if isWinner then .found best.file
    else .ambiguous (((best :: rest).take 5).map (fun c => c.file))

/-- `findBestMatch` of matcher.ts. -/
def findBestMatch (queries dates : List String) (availableFiles : List FileNode) :
    MatchResult :=
  if queries = [] then .noQuery
  else
    let dateSearchTerms := dates.flatMap getDatePermutations
    let allCandidates := queries.flatMap (candidatesFor dateSearchTerms availableFiles)
    let sortedCandidates := sortByScoreDesc (dedupByPath allCandidates)
    classifySorted sortedCandidates

/-! ## Reconciliation (App.tsx, `reconcileFiles`) -/

/-- The freshly enumerated `path → File` map, as an association list; lookup
models `Map.get`. -/
def lookupHandle (fileSource : List (String × Nat)) (path : String) : Option Nat :=
  (fileSource.find? (fun kv => kv.1 == path)).map (fun kv => kv.2)

/-- Per-node re-attachment: only a node without a handle whose path is in the
map gains one (App.tsx lines 75–98, the same pattern for all three fields). -/
def attachHandle (fileSource : List (String × Nat)) (n : FileNode) : FileNode :=
  match n.fileObject with
  | some _ => n
  | none =>
    match lookupHandle fileSource n.path with
    | some f => { n with fileObject := some f }
    | none => n

/-- Reconciliation of a single record: re-attach handles inside `matchedFile`,
`manualResolutions` and `candidates`. -/
def reconcileResult (fileSource : List (String × Nat)) (res : AnalysisResult) :
    AnalysisResult :=
  { res with
    matchedFile := res.matchedFile.map (attachHandle fileSource),
    manualResolutions := res.manualResolutions.map (fun l => l.map (attachHandle fileSource)),
    candidates := res.candidates.map (fun l => l.map (attachHandle fileSource)) }

/-- `reconcileFiles` of App.tsx (the pure record transformation; the
surrounding state updates are UI plumbing). -/
def reconcileFiles (currentResults : List AnalysisResult)
    (fileSource : List (String × Nat)) : List AnalysisResult :=
  currentResults.map (reconcileResult fileSource)

/-! ## Session reload migration (App.tsx, `handleLoadProject`) -/

/-- Per-record migration of `handleLoadProject` (App.tsx lines 251–262):
promote the legacy singular `manualResolution` into the list form when the
list is absent or empty, then force FOUND whenever the list is non-empty. -/
def migrateLoadedResult (r : AnalysisResult) : AnalysisResult :=
  let r1 :=
    match r.manualResolution, r.manualResolutions with
    | some legacy, none => { r with manualResolutions := some [legacy] }
    | some legacy, some [] => { r with manualResolutions := some [legacy] }
    | _, _ => r
  match r1.manualResolutions with
  | some (_ :: _) => { r1 with matchStatus := .FOUND }
  | _ => r1

/-! ## Excel cell writer (excelHelper.ts, `generateAndDownloadExcel`) -/

/-- What `generateAndDownloadExcel` stores into column index 3 of a row:
a hyperlink cell, a plain text cell, or nothing (original cell left as is). -/
inductive CellWrite where
  | hyperlink (display : String) (target : String) (tooltip : String)
  | text (value : String)
  | unchanged
deriving DecidableEq

/-- The `finalFiles` resolution of excelHelper.ts lines 36–42: a non-empty
`manualResolutions` wins, else a present `matchedFile`, else nothing. -/
def resolvedFiles (res : AnalysisResult) : List FileNode :=
  match res.manualResolutions with
  | some (f :: fs) => f :: fs
  | _ =>
    match res.matchedFile with
    | some f => [f]
    | none => []

/-- The cell written for one record (excelHelper.ts lines 44–75). -/
def writeCellForResult (res : AnalysisResult) : CellWrite :=
  match resolvedFiles res with
  | primaryFile :: restFiles =>
    let finalFiles := primaryFile :: restFiles
    let fileNames := String.intercalate ", " (finalFiles.map (fun f => f.name))
    .hyperlink
      (if finalFiles.length > 1 then "(Múltiplos) " ++ fileNames else fileNames)
      primaryFile.path
      (if finalFiles.length > 1
       then "Abre: " ++ primaryFile.name ++ ". (Outros ficheiros listados no texto)"
       else "Abrir ficheiro local: " ++ primaryFile.name)
  | [] =>
    if res.matchStatus = .AMBIGUOUS then
      .text ("AMBÍGUO: " ++
        (match res.candidates with
         | some cs => String.intercalate ", " (cs.map (fun c => c.name))
         | none => ""))
    else if res.matchStatus = .NOT_FOUND ∧ res.isIgnored = false then
      .text "FALHA - Verificar Manualmente"
    else .unchanged

/-! ## Specification-side predicates used by the claims -/

/-- The text contains a quoted substring: an opening quote, a non-empty run of
characters free of closing quotes, then a closing quote. -/
def ContainsQuoted (l : List Char) : Prop :=
  ∃ pre mid post o cl,
    l = pre ++ o :: (mid ++ cl :: post) ∧
    isQuoteOpener o = true ∧ isQuoteCloser cl = true ∧ mid ≠ [] ∧
    ∀ x ∈ mid, isQuoteCloser x = false

/-- The claim's reading of the canonicalizer guard: the raw string splits into
exactly three parts consisting solely of digits. -/
def SplitsIntoThreeNumericParts (s : String) : Prop :=
  (dateCleanParts s).length = 3 ∧ ∀ p ∈ dateCleanParts s, ∀ c ∈ p.data, c.isDigit = true

instance : DecidablePred SplitsIntoThreeNumericParts := fun s => by
  unfold SplitsIntoThreeNumericParts
  infer_instance

/-- Survivor lists are sorted descending by score. -/
def SortedDescBy (l : List Candidate) : Prop :=
  l.Pairwise (fun a b => b.score ≤ a.score)

/-- Survivor lists are deduplicated: pairwise distinct paths. -/
def DistinctPaths (l : List Candidate) : Prop :=
  l.Pairwise (fun a b => a.file.path ≠ b.file.path)

/-- Handle monotonicity of reconciliation at one node: a present handle is
kept unchanged, and an absent handle becomes exactly what the mapping holds
for the node's path (absent when the path is unmapped). -/
def HandleMono (fileSource : List (String × Nat)) (n n' : FileNode) : Prop :=
  (∀ h, n.fileObject = some h → n'.fileObject = some h) ∧
  (n.fileObject = none →
    (lookupHandle fileSource n.path = none ∧ n'.fileObject = none) ∨
    (∃ h, lookupHandle fileSource n.path = some h ∧ n'.fileObject = some h))

/-- Option-lifted relation (for `matchedFile`). -/
def OptRel (R : FileNode → FileNode → Prop) : Option FileNode → Option FileNode → Prop
  | none, none => True
  | some a, some b => R a b
  | _, _ => False

/-- Option-of-list-lifted relation (for `candidates` / `manualResolutions`). -/
def OptListRel (R : FileNode → FileNode → Prop) :
    Option (List FileNode) → Option (List FileNode) → Prop
  | none, none => True
  | some a, some b => List.Forall₂ R a b
  | _, _ => False

/-- Handle monotonicity of reconciliation at one record: every node stored in
`matchedFile`, `candidates` or `manualResolutions` evolves by `HandleMono`. -/
def ResultHandleMono (fileSource : List (String × Nat)) (r r' : AnalysisResult) : Prop :=
  OptRel (HandleMono fileSource) r.matchedFile r'.matchedFile ∧
  OptListRel (HandleMono fileSource) r.candidates r'.candidates ∧
  OptListRel (HandleMono fileSource) r.manualResolutions r'.manualResolutions

/-- Invariant of the dedup fold: the accumulator has pairwise distinct paths,
each entry comes from the processed prefix `seen` and dominates every
same-path entry of `seen`, and every path of `seen` is represented. -/
def GoodAcc (seen acc : List Candidate) : Prop :=
  DistinctPaths acc ∧
  (∀ e ∈ acc, e ∈ seen ∧ ∀ c ∈ seen, c.file.path = e.file.path → c.score ≤ e.score) ∧
  (∀ c ∈ seen, ∃ e ∈ acc, e.file.path = c.file.path)

/-! ## Concrete inputs used by the witnesses and scenarios -/

/-- The candidate file of the spec's FOUND scenario. -/
def relFile : FileNode :=
  ⟨"RE_Relatorio_Final_20042010.pdf", "Ponto 1/RE_Relatorio_Final_20042010.pdf", 0, none⟩

def demoFileA : FileNode := ⟨"a.pdf", "Ponto 1/a.pdf", 0, none⟩

def demoFileB : FileNode := ⟨"b.pdf", "Ponto 1/b.pdf", 0, none⟩

def demoFileC : FileNode := ⟨"c.pdf", "Ponto 1/c.pdf", 0, none⟩

/-- Three scored candidates, two of them for the same file. -/
def demoCands : List Candidate :=
  [⟨demoFileA, 1⟩, ⟨demoFileB, 3⟩, ⟨demoFileA, 2⟩]

/-- A neutral record; witness records are built from it by field update. -/
def demoRec : AnalysisResult :=
  { rowId := 1, originalContent := "x", targetFolder := some "Ponto 1",
    extractedQueries := [], extractedDates := [], matchStatus := .NOT_FOUND,
    matchedFile := none, candidates := none, aiSuggestion := none,
    manualResolutions := none, isIgnored := false, manualResolution := none }

/-! # Theorems -/

/-- C9: tokenization is deterministic — tokenizing the same input twice yields
identical token sequences (the embedding is a pure function) — and the pair
`"RE_Mapas"` / `"re mapas"` tokenizes to the identical sequence, witnessing
case-, accent- and underscore-insensitivity of the normalization. -/
theorem tokenize_deterministic_insensitive :
    (∀ s : String, tokenize s = tokenize s) ∧
    tokenize "RE_Mapas" = tokenize "re mapas" :=
  ⟨fun _ => rfl, by decide⟩

/-- C8 (counterexample): the claim fails twice on the code.  `"a-b-c"` does
not split into three numeric parts, yet it is not returned unchanged; and for
`"20/04/2010"`, which does split into three numeric parts, the variant list
has no year-first space-separated variant, so the list does not contain
space-separated variants in both orders. -/
theorem getDatePermutations_claim_counterexample :
    (¬ SplitsIntoThreeNumericParts "a-b-c" ∧
      getDatePermutations "a-b-c" ≠ ["a-b-c"]) ∧
    (SplitsIntoThreeNumericParts "20/04/2010" ∧
      "2010 04 20" ∉ getDatePermutations "20/04/2010") := by
  constructor
  · exact ⟨by decide, by decide⟩
  · exact ⟨by decide, by decide⟩

/-- C8 (amended): for every raw string splitting into exactly three non-empty
parts — numeric or not — the canonicalizer returns the fixed variant list
(padded concatenation in day-first and year-first order, hyphen-, underscore-
and dot-separated variants in both orders, and a space-separated day-first
variant); a raw string not splitting into exactly three non-empty parts is
returned unchanged as the sole variant. -/
theorem getDatePermutations_spec (s : String) :
    (∀ p1 p2 p3, dateCleanParts s = [p1, p2, p3] →
      getDatePermutations s =
        (let dmy := if p1.length = 4 then (p3, p2, p1) else (p1, p2, p3)
         let day := padStart2 dmy.1
         let month := padStart2 dmy.2.1
         let year := dmy.2.2
         [day ++ month ++ year,
          year ++ month ++ day,
          day ++ "-" ++ month ++ "-" ++ year,
          year ++ "-" ++ month ++ "-" ++ day,
          year ++ "_" ++ month ++ "_" ++ day,
          year ++ "." ++ month ++ "." ++ day,
          day ++ "_" ++ month ++ "_" ++ year,
          day ++ "." ++ month ++ "." ++ year,
          day ++ " " ++ month ++ " " ++ year])) ∧
    ((dateCleanParts s).length ≠ 3 → getDatePermutations s = [s]) := by
  constructor
  · intro p1 p2 p3 h
    unfold getDatePermutations
    rw [h]
  · intro h
    unfold getDatePermutations
    rcases hc : dateCleanParts s with _ | ⟨a, _ | ⟨b, _ | ⟨c, _ | ⟨d, l⟩⟩⟩⟩ <;>
      first
        | rfl
        | (exfalso; apply h; rw [hc]; rfl)

/-- C8 (witness): both branches of the amended statement at concrete inputs. -/
theorem getDatePermutations_spec_witness :
    getDatePermutations "20/04/2010" =
      ["20042010", "20100420", "20-04-2010", "2010-04-20", "2010_04_20",
       "2010.04.20", "20_04_2010", "20.04.2010", "20 04 2010"] ∧
    getDatePermutations "abc" = ["abc"] := by
  constructor
  · exact ((getDatePermutations_spec "20/04/2010").1 "20" "04" "2010"
      (by decide)).trans (by decide)
  · exact (getDatePermutations_spec "abc").2 (by decide)

/-- C6: on reload, a legacy singular `manualResolution` is promoted into the
`manualResolutions` list when that list is absent or empty, and after
migration every record with a non-empty `manualResolutions` has
`matchStatus` forced to FOUND. -/
theorem migrateLoadedResult_spec (r : AnalysisResult) :
    (∀ legacy, r.manualResolution = some legacy →
      (r.manualResolutions = none ∨ r.manualResolutions = some []) →
      (migrateLoadedResult r).manualResolutions = some [legacy]) ∧
    (∀ l, (migrateLoadedResult r).manualResolutions = some l → l ≠ [] →
      (migrateLoadedResult r).matchStatus = .FOUND) := by
  constructor
  · intro legacy hleg hml
    rcases hml with h | h <;>
      simp [migrateLoadedResult, hleg, h]
  · intro l hl hne
    rcases hmr : r.manualResolution with _ | legacy <;>
      rcases hmrs : r.manualResolutions with _ | ⟨_ | ⟨x, xs⟩⟩ <;>
        simp [migrateLoadedResult, hmr, hmrs] at hl ⊢ <;>
          first
            | rfl
            | exact absurd hl.symm hne
            | exact absurd hl hne

/-- C6 (witness): a record carrying only the legacy field is migrated to the
list form and forced to FOUND. -/
theorem migrateLoadedResult_spec_witness :
    (migrateLoadedResult { demoRec with manualResolution := some demoFileA }).manualResolutions
        = some [demoFileA] ∧
    (migrateLoadedResult { demoRec with manualResolution := some demoFileA }).matchStatus
        = .FOUND := by
  have h := migrateLoadedResult_spec { demoRec with manualResolution := some demoFileA }
  have h1 := h.1 demoFileA rfl (Or.inl rfl)
  exact ⟨h1, h.2 [demoFileA] h1 (by simp)⟩

/-- C7: the cell written into column index 3 per record — a record with a
resolution (non-empty `manualResolutions`, else `matchedFile`) gets a
hyperlink cell displaying the resolved names (prefixed when more than one)
targeting the first resolved file's relative path; an AMBIGUOUS record without
resolution gets a flagged text listing candidate names; a NOT_FOUND record not
ignored gets the flagged failure marker; NO_QUERY rows and the remaining
ignored rows write nothing, leaving the original cell unchanged. -/
theorem writeCellForResult_spec (res : AnalysisResult) :
    (∀ primaryFile restFiles, resolvedFiles res = primaryFile :: restFiles →
      writeCellForResult res =
        .hyperlink
          (if (primaryFile :: restFiles).length > 1
           then "(Múltiplos) " ++
             String.intercalate ", " ((primaryFile :: restFiles).map (fun f => f.name))
           else String.intercalate ", " ((primaryFile :: restFiles).map (fun f => f.name)))
          primaryFile.path
          (if (primaryFile :: restFiles).length > 1
           then "Abre: " ++ primaryFile.name ++ ". (Outros ficheiros listados no texto)"
           else "Abrir ficheiro local: " ++ primaryFile.name)) ∧
    (resolvedFiles res = [] → res.matchStatus = .AMBIGUOUS →
      writeCellForResult res =
        .text ("AMBÍGUO: " ++
          (match res.candidates with
           | some cs => String.intercalate ", " (cs.map (fun c => c.name))
           | none => ""))) ∧
    (resolvedFiles res = [] → res.matchStatus = .NOT_FOUND → res.isIgnored = false →
      writeCellForResult res = .text "FALHA - Verificar Manualmente") ∧
    (resolvedFiles res = [] →
      (res.matchStatus = .NO_QUERY ∨
        (res.isIgnored = true ∧ res.matchStatus ≠ .AMBIGUOUS)) →
      writeCellForResult res = .unchanged) := by
  refine ⟨?_, ?_, ?_, ?_⟩
  · intro primaryFile restFiles h
    unfold writeCellForResult
    rw [h]
  · intro h hst
    unfold writeCellForResult
    rw [h, hst]
    simp
  · intro h hst hig
    unfold writeCellForResult
    rw [h, hst, hig]
    simp
  · intro h hcase
    unfold writeCellForResult
    rw [h]
    rcases hcase with hst | ⟨hig, hst⟩
    · rw [hst]; simp
    · rw [if_neg hst, if_neg (by simp [hig])]

/-- C7 (witness): the four cases at concrete records. -/
theorem writeCellForResult_spec_witness :
    writeCellForResult { demoRec with manualResolutions := some [demoFileA, demoFileB] } =
      .hyperlink "(Múltiplos) a.pdf, b.pdf" "Ponto 1/a.pdf"
        "Abre: a.pdf. (Outros ficheiros listados no texto)" ∧
    writeCellForResult { demoRec with matchStatus := MatchStatus.AMBIGUOUS,
                                      candidates := some [demoFileA, demoFileC] } =
      .text "AMBÍGUO: a.pdf, c.pdf" ∧
    writeCellForResult demoRec = .text "FALHA - Verificar Manualmente" ∧
    writeCellForResult { demoRec with isIgnored := true } = .unchanged := by
  refine ⟨?_, ?_, ?_, ?_⟩
  · exact ((writeCellForResult_spec
      { demoRec with manualResolutions := some [demoFileA, demoFileB] }).1
      demoFileA [demoFileB] (by decide)).trans (by decide)
  · exact ((writeCellForResult_spec
      { demoRec with matchStatus := MatchStatus.AMBIGUOUS,
                     candidates := some [demoFileA, demoFileC] }).2.1
      (by decide) (by decide)).trans (by decide)
  · exact (writeCellForResult_spec demoRec).2.2.1 (by decide) (by decide) (by decide)
  · exact (writeCellForResult_spec { demoRec with isIgnored := true }).2.2.2
      (by decide) (Or.inr ⟨by decide, by decide⟩)

/-- C1: on a non-empty deduplicated, descending-sorted survivor list the
classifier returns FOUND with the top survivor exactly when the best score
exceeds 1.2, or there is no runner-up, or the best score beats the runner-up
by more than 0.1; otherwise it returns AMBIGUOUS with the top five survivors
in order; the empty survivor list yields NOT_FOUND. -/
theorem classifySorted_margin_rule (sorted : List Candidate)
    (hsorted : SortedDescBy sorted) (hdedup : DistinctPaths sorted) :
    (sorted = [] → classifySorted sorted = .notFound) ∧
    (∀ best rest, sorted = best :: rest →
      ((classifySorted sorted = .found best.file) ↔
        ((1.2 : ℚ) < best.score ∨ rest = [] ∨
          ∃ runnerUp rest2, rest = runnerUp :: rest2 ∧
            runnerUp.score + (0.1 : ℚ) < best.score)) ∧
      (¬ ((1.2 : ℚ) < best.score ∨ rest = [] ∨
          ∃ runnerUp rest2, rest = runnerUp :: rest2 ∧
            runnerUp.score + (0.1 : ℚ) < best.score) →
        classifySorted sorted = .ambiguous ((sorted.take 5).map (fun c => c.file)))) := by
  constructor
  · intro h; rw [h]; rfl
  · intro best rest heq
    subst heq
    rcases rest with _ | ⟨runnerUp, rest2⟩
    · have hfound : classifySorted [best] = .found best.file := by
        simp [classifySorted]
      constructor
      · exact ⟨fun _ => Or.inr (Or.inl rfl), fun _ => hfound⟩
      · intro hcon
        exact absurd (Or.inr (Or.inl rfl)) hcon
    · by_cases hA : (1.2 : ℚ) < best.score
      · have hfound : classifySorted (best :: runnerUp :: rest2) = .found best.file := by
          simp [classifySorted, hA]
        constructor
        · exact ⟨fun _ => Or.inl hA, fun _ => hfound⟩
        · intro hcon
          exact absurd (Or.inl hA) hcon
      · by_cases hB : runnerUp.score + (0.1 : ℚ) < best.score
        · have hfound : classifySorted (best :: runnerUp :: rest2) = .found best.file := by
            simp [classifySorted, hA, hB]
          constructor
          · exact ⟨fun _ => Or.inr (Or.inr ⟨runnerUp, rest2, rfl, hB⟩), fun _ => hfound⟩
          · intro hcon
            exact absurd (Or.inr (Or.inr ⟨runnerUp, rest2, rfl, hB⟩)) hcon
        · have hamb : classifySorted (best :: runnerUp :: rest2) =
              .ambiguous (((best :: runnerUp :: rest2).take 5).map (fun c => c.file)) := by
            simp [classifySorted, hA, hB]
          constructor
          · constructor
            · intro hfound
              rw [hamb] at hfound
              exact absurd hfound (by simp)
            · rintro (h | h | ⟨ru, r2, hr, hlt⟩)
              · exact absurd h hA
              · exact absurd h (by simp)
              · injection hr with h1 h2
                exact absurd (h1 ▸ hlt) hB
          · intro _; exact hamb

/-- C1 (witness): a singleton survivor list is FOUND; two survivors within the
margin are AMBIGUOUS. -/
theorem classifySorted_margin_rule_witness :
    classifySorted [⟨demoFileA, 2⟩] = .found demoFileA ∧
    classifySorted [⟨demoFileA, 1⟩, ⟨demoFileB, 1⟩] =
      .ambiguous [demoFileA, demoFileB] := by
  constructor
  · exact ((classifySorted_margin_rule [⟨demoFileA, 2⟩] (by simp [SortedDescBy])
      (by simp [DistinctPaths])).2 ⟨demoFileA, 2⟩ [] rfl).1.mpr (Or.inr (Or.inl rfl))
  · have h := ((classifySorted_margin_rule [⟨demoFileA, 1⟩, ⟨demoFileB, 1⟩]
      (by simp [SortedDescBy]) (by simp [DistinctPaths, demoFileA, demoFileB])).2
      ⟨demoFileA, 1⟩ [⟨demoFileB, 1⟩] rfl).2
      (by
        rintro (h | h | ⟨ru, r2, hr, hlt⟩)
        · norm_num at h
        · exact absurd h (by simp)
        · injection hr with h1 h2
          rw [← h1] at hlt
          norm_num at hlt)
    exact h.trans (by decide)

/-- Re-attaching a handle twice with the same mapping equals attaching once. -/
theorem attachHandle_idem (fs : List (String × Nat)) (n : FileNode) :
    attachHandle fs (attachHandle fs n) = attachHandle fs n := by
  rcases hn : n.fileObject with _ | h
  · rcases hl : lookupHandle fs n.path with _ | f
    · simp [attachHandle, hn, hl]
    · simp [attachHandle, hn, hl]
  · simp [attachHandle, hn]

/-- A single record is reconciled idempotently. -/
theorem reconcileResult_idem (fs : List (String × Nat)) (r : AnalysisResult) :
    reconcileResult fs (reconcileResult fs r) = reconcileResult fs r := by
  have hg : attachHandle fs ∘ attachHandle fs = attachHandle fs :=
    funext (attachHandle_idem fs)
  simp [reconcileResult, Option.map_map, List.map_map, hg]

/-- Every node grows by `HandleMono` under one attachment. -/
theorem handleMono_attach (fs : List (String × Nat)) (n : FileNode) :
    HandleMono fs n (attachHandle fs n) := by
  constructor
  · intro h hh
    simp [attachHandle, hh]
  · intro hnone
    rcases hl : lookupHandle fs n.path with _ | f
    · exact Or.inl ⟨rfl, by simp [attachHandle, hnone, hl]⟩
    · exact Or.inr ⟨f, rfl, by simp [attachHandle, hnone, hl]⟩

/-- Lift `HandleMono` through `Option.map`. -/
theorem optRel_attach (fs : List (String × Nat)) (o : Option FileNode) :
    OptRel (HandleMono fs) o (o.map (attachHandle fs)) := by
  rcases o with _ | n
  · exact trivial
  · exact handleMono_attach fs n

/-- Lift `HandleMono` through `List.map`. -/
theorem forall₂_attach (fs : List (String × Nat)) (l : List FileNode) :
    List.Forall₂ (HandleMono fs) l (l.map (attachHandle fs)) := by
  induction l with
  | nil => exact List.Forall₂.nil
  | cons n t ih => exact List.Forall₂.cons (handleMono_attach fs n) ih

/-- Lift `HandleMono` through `Option.map (List.map …)`. -/
theorem optListRel_attach (fs : List (String × Nat)) (o : Option (List FileNode)) :
    OptListRel (HandleMono fs) o (o.map (fun l => l.map (attachHandle fs))) := by
  rcases o with _ | l
  · exact trivial
  · exact forall₂_attach fs l

/-- C4: reconciliation is idempotent — applying the same path→handle mapping
twice yields the same record list as applying it once — and handle-monotone:
every `fileObject` already present on a `matchedFile`, `candidates` entry or
`manualResolutions` entry is kept unchanged, and an absent handle gains
exactly the mapping's entry for its path (nothing when the path is
unmapped). -/
theorem reconcileFiles_idempotent_monotone (rs : List AnalysisResult)
    (fs : List (String × Nat)) :
    reconcileFiles (reconcileFiles rs fs) fs = reconcileFiles rs fs ∧
    List.Forall₂ (ResultHandleMono fs) rs (reconcileFiles rs fs) := by
  constructor
  · unfold reconcileFiles
    rw [List.map_map]
    exact List.map_congr_left (fun r _ => reconcileResult_idem fs r)
  · unfold reconcileFiles
    rw [List.forall₂_map_right_iff]
    rw [List.forall₂_same]
    intro r _
    exact ⟨optRel_attach fs r.matchedFile,
           optListRel_attach fs r.candidates,
           optListRel_attach fs r.manualResolutions⟩

/-- A quoted substring of the tail is a quoted substring of the whole. -/
theorem containsQuoted_cons (c : Char) (l : List Char) (h : ContainsQuoted l) :
    ContainsQuoted (c :: l) := by
  obtain ⟨pre, mid, post, o, cl, heq, ho, hcl, hne, hmid⟩ := h
  exact ⟨c :: pre, mid, post, o, cl, by rw [heq]; rfl, ho, hcl, hne, hmid⟩

/-- Elements of `takeWhile p` satisfy `p`. -/
theorem mem_takeWhile_sat {p : Char → Bool} :
    ∀ {l : List Char} {x : Char}, x ∈ l.takeWhile p → p x = true := by
  intro l
  induction l with
  | nil => intro x hx; simp [List.takeWhile] at hx
  | cons c t ih =>
    intro x hx
    rw [List.takeWhile] at hx
    rcases hc : p c with _ | _
    · rw [hc] at hx; simp at hx
    · rw [hc] at hx
      rcases List.mem_cons.mp hx with h | h
      · rw [h]; exact hc
      · exact ih h

/-- The head of a non-empty `dropWhile p` falsifies `p`. -/
theorem dropWhile_head_false {p : Char → Bool} :
    ∀ {l : List Char} {a : Char} {as : List Char},
      l.dropWhile p = a :: as → p a = false := by
  intro l
  induction l with
  | nil => intro a as h; simp [List.dropWhile] at h
  | cons c t ih =>
    intro a as h
    rw [List.dropWhile] at h
    rcases hc : p c with _ | _
    · rw [hc] at h
      injection h with h1 _
      rw [← h1]; exact hc
    · rw [hc] at h
      exact ih h

/-- Text without a quoted substring yields no `QUOTE_REGEX` match. -/
theorem scanQuotesAux_nil_of_not_contains :
    ∀ (fuel : Nat) (l : List Char), ¬ ContainsQuoted l → scanQuotesAux fuel l = [] := by
  intro fuel
  induction fuel with
  | zero => intro l _; rfl
  | succ fuel ih =>
    intro l h
    match l with
    | [] => rfl
    | c :: rest =>
      have hrest : ¬ ContainsQuoted rest := fun hc => h (containsQuoted_cons c rest hc)
      by_cases hop : isQuoteOpener c = true
      · rcases hd : rest.dropWhile (fun x => !(isQuoteCloser x)) with _ | ⟨cl, after⟩
        · simp only [scanQuotesAux, hop, if_pos, hd]
          rcases ht : rest.takeWhile (fun x => !(isQuoteCloser x)) with _ | ⟨r0, run0⟩ <;>
            exact ih rest hrest
        · rcases ht : rest.takeWhile (fun x => !(isQuoteCloser x)) with _ | ⟨r0, run0⟩
          · simp only [scanQuotesAux, hop, if_pos, hd, ht]
            exact ih rest hrest
          · exfalso
            apply h
            have hsplit : rest = (r0 :: run0) ++ cl :: after := by
              have htd := List.takeWhile_append_dropWhile
                (p := fun x => !(isQuoteCloser x)) (l := rest)
              rw [ht, hd] at htd
              exact htd.symm
            refine ⟨[], r0 :: run0, after, c, cl, by rw [hsplit]; rfl, hop, ?_, by simp, ?_⟩
            · have := dropWhile_head_false hd
              simpa using this
            · intro x hx
              have := mem_takeWhile_sat (ht ▸ hx)
              simpa using this
      · simp only [scanQuotesAux, hop, if_neg, if_false, Bool.false_eq_true]
        exact ih rest hrest

/-- A text with no opening quote character has no quoted substring. -/
theorem not_containsQuoted_of_no_opener (l : List Char)
    (h : ∀ x ∈ l, isQuoteOpener x = false) : ¬ ContainsQuoted l := by
  rintro ⟨pre, mid, post, o, cl, heq, ho, -, -, -⟩
  have hol : o ∈ l := by
    rw [heq]
    exact List.mem_append.mpr (Or.inr (List.mem_cons_self o _))
  rw [h o hol] at ho
  cases ho

/-- C3: a cell text containing no quoted substring extracts an empty query
list, and the classifier maps an empty query list to NO_QUERY for every date
list and every candidate pool. -/
theorem no_quote_yields_noQuery (s : String) (h : ¬ ContainsQuoted s.data) :
    (extractMetadata s).queries = [] ∧
    ∀ (dates : List String) (files : List FileNode),
      findBestMatch (extractMetadata s).queries dates files = .noQuery := by
  have hq : (extractMetadata s).queries = [] := by
    unfold extractMetadata
    rw [scanQuotes, scanQuotesAux_nil_of_not_contains s.data.length s.data h]
    simp
  refine ⟨hq, fun dates files => ?_⟩
  rw [hq]
  rfl

/-- C3 (witness): a quote-free cell with a date still classifies NO_QUERY. -/
theorem no_quote_yields_noQuery_witness :
    (extractMetadata "Email de 20/04/2010 sem aspas").queries = [] ∧
    findBestMatch (extractMetadata "Email de 20/04/2010 sem aspas").queries
      ["20/04/2010"] [relFile] = .noQuery := by
  have h := no_quote_yields_noQuery "Email de 20/04/2010 sem aspas"
    (not_containsQuoted_of_no_opener _ (by decide))
  exact ⟨h.1, h.2 ["20/04/2010"] [relFile]⟩

/-- Splitting on a character that does not occur returns the whole list as the
single segment. -/
theorem jsSplitChars_no_sep (p : Char → Bool) :
    ∀ (l : List Char), (∀ c ∈ l, p c = false) → jsSplitChars p l = [l] := by
  intro l
  induction l with
  | nil => intro _; rfl
  | cons c rest ih =>
    intro h
    have hc : p c = false := h c (List.mem_cons_self c rest)
    have hrest := ih (fun x hx => h x (List.mem_cons_of_mem c hx))
    unfold jsSplitChars
    rw [hc]
    simp only [Bool.false_eq_true, if_false, hrest]

/-- `split('.').pop()` of a dot-free string is the string itself. -/
theorem splitDotPop_no_dot (s : String) (h : ∀ c ∈ s.data, c ≠ '.') :
    splitDotPop s = s := by
  unfold splitDotPop
  rw [jsSplitChars_no_sep (fun c => c == '.') s.data
    (fun c hc => by simpa using h c hc)]
  rfl

/-- The extension boost fires for a dot-free query matching the file's
extension. -/
theorem extBoost_of_no_dot (query fname : String)
    (hdot : ∀ c ∈ query.data, c ≠ '.')
    (hext : toLowerJS (splitDotPop fname) = toLowerJS query)
    (hlen : 2 < (toLowerJS query).length) :
    extBoost query fname = 0.20 := by
  have hne : toLowerJS query ≠ "" := by
    intro he
    rw [he] at hlen
    exact absurd hlen (by norm_num)
  unfold extBoost
  rw [splitDotPop_no_dot query hdot]
  rw [if_pos ⟨hne, by rw [hext]; exact hne, hext.symm, hlen⟩]

/-- C10: for a query with no `.` character sharing at least one token with the
candidate, a lower-cased file extension longer than two characters equal to
the entire lower-cased query triggers the 0.20 extension boost — the query
itself need not contain a dot-separated suffix. -/
theorem scoreFile_extension_boost_no_dot (dateSearchTerms : List String)
    (query : String) (f : FileNode)
    (hdot : ∀ c ∈ query.data, c ≠ '.')
    (hshare : (tokenize query).filter (fun qt => (tokenize f.name).contains qt) ≠ [])
    (hext : toLowerJS (splitDotPop f.name) = toLowerJS query)
    (hlen : 2 < (toLowerJS query).length) :
    scoreFile dateSearchTerms query f =
      some (max
        ((((tokenize query).filter (fun qt => (tokenize f.name).contains qt)).length : ℚ)
          / ((tokenize f.name).length : ℚ))
        ((((tokenize query).filter (fun qt => (tokenize f.name).contains qt)).length : ℚ)
          / ((tokenize query).length : ℚ))
        + dateBoost dateSearchTerms f.name + (0.20 : ℚ) + seqBoost query f.name) := by
  have hft : ¬ (tokenize f.name = []) := by
    intro hft
    apply hshare
    rw [hft]
    exact List.filter_eq_nil_iff.mpr (fun a _ => by simp)
  have hmc : ¬ (((tokenize query).filter
      (fun qt => (tokenize f.name).contains qt)).length = 0) := by
    rw [List.length_eq_zero]
    exact hshare
  have heb := extBoost_of_no_dot query f.name hdot hext hlen
  simp only [scoreFile]
  rw [if_neg hft, if_neg hmc, heb]

/-- C10 (witness): query `"pdf"` (no dot) against `report.pdf`. -/
theorem scoreFile_extension_boost_no_dot_witness :
    scoreFile [] "pdf" ⟨"report.pdf", "Ponto 1/report.pdf", 0, none⟩ =
      some (max
        ((((tokenize "pdf").filter
            (fun qt => (tokenize "report.pdf").contains qt)).length : ℚ)
          / ((tokenize "report.pdf").length : ℚ))
        ((((tokenize "pdf").filter
            (fun qt => (tokenize "report.pdf").contains qt)).length : ℚ)
          / ((tokenize "pdf").length : ℚ))
        + dateBoost [] "report.pdf" + (0.20 : ℚ) + seqBoost "pdf" "report.pdf") :=
  scoreFile_extension_boost_no_dot [] "pdf" ⟨"report.pdf", "Ponto 1/report.pdf", 0, none⟩
    (by decide) (by decide) (by decide) (by decide)

/-- C2: the spec's scenario — for cell text `Email "Relatório Final" de
20/04/2010` and candidate `RE_Relatorio_Final_20042010.pdf` in the row's
folder, extraction yields exactly that query and date, the score combines
token overlap (1.0) and the date boost (0.40) to 1.4 > 1.2, and
classification returns FOUND with that file. -/
theorem scenario_relatorio_final_found :
    extractMetadata "Email \"Relatório Final\" de 20/04/2010" =
      ⟨["Relatório Final"], ["20/04/2010"]⟩ ∧
    scoreFile (["20/04/2010"].flatMap getDatePermutations) "Relatório Final" relFile
      = some (7/5) ∧
    (1.2 : ℚ) < 7/5 ∧
    findBestMatch ["Relatório Final"] ["20/04/2010"] [relFile] = .found relFile := by
  have hq : tokenize "Relatório Final" = ["relatorio", "final"] := by decide
  have hf : tokenize relFile.name = ["relatorio", "final", "20042010", "pdf"] := by decide
  have hint : (["relatorio", "final"] : List String).filter
      (fun qt => (["relatorio", "final", "20042010", "pdf"] : List String).contains qt)
      = ["relatorio", "final"] := by decide
  have hdb : dateBoost (["20/04/2010"].flatMap getDatePermutations) relFile.name
      = 0.40 := by
    unfold dateBoost
    rw [if_pos (by decide)]
  have heb : extBoost "Relatório Final" relFile.name = 0 := by
    unfold extBoost
    rw [if_neg (by decide)]
  have hsb : seqBoost "Relatório Final" relFile.name = 0 := by
    unfold seqBoost
    rw [if_neg (by decide)]
  have hscore : scoreFile (["20/04/2010"].flatMap getDatePermutations)
      "Relatório Final" relFile = some (7/5) := by
    simp only [scoreFile, hq, hf, hint, hdb, heb, hsb]
    rw [if_neg (by decide), if_neg (by decide)]
    norm_num
  have hscore' : scoreFile (getDatePermutations "20/04/2010") "Relatório Final" relFile
      = some (7/5) := by
    simpa [List.flatMap_cons, List.flatMap_nil] using hscore
  have hcand : candidatesFor (getDatePermutations "20/04/2010") [relFile]
      "Relatório Final" = [⟨relFile, 7/5⟩] := by
    unfold candidatesFor
    rw [if_neg (by decide)]
    simp only [List.filterMap_cons, List.filterMap_nil, hscore']
    rw [if_pos (by norm_num)]
  have hclass : classifySorted [⟨relFile, (7 : ℚ)/5⟩] = .found relFile := by
    simp only [classifySorted]
    rw [if_pos (by simp)]
  have hmain : findBestMatch ["Relatório Final"] ["20/04/2010"] [relFile]
      = .found relFile := by
    unfold findBestMatch
    rw [if_neg (by simp)]
    simp only [List.flatMap_cons, List.flatMap_nil, List.append_nil, hcand]
    exact hclass
  exact ⟨by decide, hscore, by norm_num, hmain⟩

/-- In a distinct-path accumulator, paths determine entries. -/
theorem distinctPaths_unique :
    ∀ (acc : List Candidate), DistinctPaths acc →
      ∀ a ∈ acc, ∀ b ∈ acc, a.file.path = b.file.path → a = b := by
  intro acc
  induction acc with
  | nil => intro _ a ha; exact absurd ha (List.not_mem_nil a)
  | cons x xs ih =>
    intro hdist a ha b hb hab
    rw [DistinctPaths, List.pairwise_cons] at hdist
    obtain ⟨hx_all, hxs⟩ := hdist
    rcases List.mem_cons.mp ha with h1 | h1 <;> rcases List.mem_cons.mp hb with h2 | h2
    · rw [h1, h2]
    · subst h1; exact absurd hab (hx_all b h2)
    · subst h2; exact absurd hab.symm (hx_all a h1)
    · exact ih hxs a h1 b h2 hab

/-- Filtering a distinct-path accumulator by a present path yields exactly its
unique entry. -/
theorem filter_path_unique (p : String) :
    ∀ (acc : List Candidate), DistinctPaths acc →
      ∀ e ∈ acc, e.file.path = p →
      acc.filter (fun x => x.file.path == p) = [e] := by
  intro acc
  induction acc with
  | nil => intro _ e he; exact absurd he (List.not_mem_nil e)
  | cons x xs ih =>
    intro hdist e he hep
    rw [DistinctPaths, List.pairwise_cons] at hdist
    obtain ⟨hx_all, hxs⟩ := hdist
    rcases List.mem_cons.mp he with h | h
    · subst h
      rw [List.filter_cons, if_pos (by simpa using hep)]
      have hnil : xs.filter (fun x => x.file.path == p) = [] := by
        apply List.filter_eq_nil_iff.mpr
        intro a ha
        simp only [beq_iff_eq]
        intro hap
        exact hx_all a ha (hep.trans hap.symm)
      rw [hnil]
    · have hxp : ¬ (x.file.path == p) = true := by
        simp only [beq_iff_eq]
        intro hxp
        exact hx_all e h (hxp.trans hep.symm)
      rw [List.filter_cons, if_neg hxp]
      exact ih hxs e h hep

/-- `Map.set` on an existing key replaces the unique same-path entry in
place. -/
theorem setCand_decomp :
    ∀ (acc : List Candidate) (c existing : Candidate),
      existing ∈ acc → existing.file.path = c.file.path → DistinctPaths acc →
      ∃ pre post, acc = pre ++ existing :: post ∧
        setCand acc c = pre ++ c :: post ∧
        (∀ x ∈ pre, x.file.path ≠ c.file.path) ∧
        (∀ x ∈ post, x.file.path ≠ c.file.path) := by
  intro acc
  induction acc with
  | nil => intro c existing hmem; exact absurd hmem (List.not_mem_nil existing)
  | cons x xs ih =>
    intro c existing hmem hpath hdist
    rw [DistinctPaths, List.pairwise_cons] at hdist
    obtain ⟨hx_all, hxs⟩ := hdist
    by_cases hx : x.file.path = c.file.path
    · have hex : existing = x := by
        rcases List.mem_cons.mp hmem with h | h
        · exact h
        · exact absurd (hx.trans hpath.symm) (hx_all existing h)
      subst hex
      refine ⟨[], xs, rfl, ?_, by simp, ?_⟩
      · simp only [setCand]
        rw [if_pos (by simpa using hx)]
        rfl
      · intro y hy hyc
        exact hx_all y hy (hx.trans hyc.symm)
    · have hex : existing ≠ x := fun he => hx (he ▸ hpath)
      have hmem' : existing ∈ xs := by
        rcases List.mem_cons.mp hmem with h | h
        · exact absurd h hex
        · exact h
      obtain ⟨pre, post, h1, h2, h3, h4⟩ := ih c existing hmem' hpath hxs
      refine ⟨x :: pre, post, by rw [h1]; rfl, ?_, ?_, h4⟩
      · simp only [setCand]
        rw [if_neg (by simpa using hx), h2]
        rfl
      · intro y hy
        rcases List.mem_cons.mp hy with h | h
        · rw [h]; exact hx
        · exact h3 y h

/-- One step of the dedup `forEach` preserves the fold invariant. -/
theorem goodAcc_step (c : Candidate) (seen acc : List Candidate)
    (hg : GoodAcc seen acc) : GoodAcc (seen ++ [c]) (updateCand acc c) := by
  obtain ⟨hdist, hmax, hcover⟩ := hg
  unfold updateCand
  rcases hfind : acc.find? (fun x => x.file.path == c.file.path) with _ | existing <;>
    simp only [hfind]
  · have hnone : ∀ x ∈ acc, x.file.path ≠ c.file.path := by
      intro x hx
      have h := List.find?_eq_none.mp hfind x hx
      simpa using h
    refine ⟨?_, ?_, ?_⟩
    · rw [DistinctPaths, List.pairwise_append]
      refine ⟨hdist, List.pairwise_singleton _ _, ?_⟩
      intro a ha b hb
      rw [List.mem_singleton] at hb
      rw [hb]
      exact hnone a ha
    · intro e he
      rcases List.mem_append.mp he with hin | hin
      · obtain ⟨hseen, hmx⟩ := hmax e hin
        refine ⟨List.mem_append.mpr (Or.inl hseen), ?_⟩
        intro c' hc'
        rcases List.mem_append.mp hc' with hmem2 | hmem2
        · exact hmx c' hmem2
        · rw [List.mem_singleton] at hmem2
          intro hp
          rw [hmem2] at hp
          exact absurd hp.symm (hnone e hin)
      · rw [List.mem_singleton] at hin
        rw [hin]
        refine ⟨List.mem_append.mpr (Or.inr (List.mem_singleton.mpr rfl)), ?_⟩
        intro c' hc'
        rcases List.mem_append.mp hc' with hmem2 | hmem2
        · intro hp
          obtain ⟨e', he', hpe⟩ := hcover c' hmem2
          exact absurd (hpe.trans hp) (hnone e' he')
        · rw [List.mem_singleton] at hmem2
          rw [hmem2]
          intro _
          exact le_refl _
    · intro c' hc'
      rcases List.mem_append.mp hc' with hmem2 | hmem2
      · obtain ⟨e', he', hpe⟩ := hcover c' hmem2
        exact ⟨e', List.mem_append.mpr (Or.inl he'), hpe⟩
      · rw [List.mem_singleton] at hmem2
        rw [hmem2]
        exact ⟨c, List.mem_append.mpr (Or.inr (List.mem_singleton.mpr rfl)), rfl⟩
  · have hmem := List.mem_of_find?_eq_some hfind
    have hpath : existing.file.path = c.file.path := by
      have h := List.find?_some hfind
      simpa using h
    by_cases hsc : existing.score < c.score
    · rw [if_pos hsc]
      obtain ⟨pre, post, hacc, hset, hpre, hpost⟩ :=
        setCand_decomp acc c existing hmem hpath hdist
      rw [hset]
      have hd := hdist
      rw [hacc, DistinctPaths, List.pairwise_append, List.pairwise_cons] at hd
      obtain ⟨hpre_pw, ⟨hex_post, hpost_pw⟩, hcross⟩ := hd
      refine ⟨?_, ?_, ?_⟩
      · rw [DistinctPaths, List.pairwise_append, List.pairwise_cons]
        refine ⟨hpre_pw, ⟨?_, hpost_pw⟩, ?_⟩
        · intro b hb
          rw [← hpath]
          exact hex_post b hb
        · intro a ha b hb
          rcases List.mem_cons.mp hb with hb2 | hb2
          · rw [hb2]
            exact hpre a ha
          · exact hcross a ha b (List.mem_cons_of_mem existing hb2)
      · intro e he
        rcases List.mem_append.mp he with hp1 | hp1
        · have heacc : e ∈ acc := by
            rw [hacc]
            exact List.mem_append.mpr (Or.inl hp1)
          obtain ⟨hseen, hmx⟩ := hmax e heacc
          refine ⟨List.mem_append.mpr (Or.inl hseen), ?_⟩
          intro c' hc'
          rcases List.mem_append.mp hc' with hmem2 | hmem2
          · exact hmx c' hmem2
          · rw [List.mem_singleton] at hmem2
            intro hp'
            rw [hmem2] at hp'
            exact absurd hp'.symm (hpre e hp1)
        · rcases List.mem_cons.mp hp1 with hp2 | hp2
          · rw [hp2]
            refine ⟨List.mem_append.mpr (Or.inr (List.mem_singleton.mpr rfl)), ?_⟩
            intro c' hc'
            rcases List.mem_append.mp hc' with hmem2 | hmem2
            · intro hp'
              have hle := (hmax existing hmem).2 c' hmem2 (hp'.trans hpath.symm)
              exact le_of_lt (lt_of_le_of_lt hle hsc)
            · rw [List.mem_singleton] at hmem2
              rw [hmem2]
              intro _
              exact le_refl _
          · have heacc : e ∈ acc := by
              rw [hacc]
              exact List.mem_append.mpr (Or.inr (List.mem_cons_of_mem existing hp2))
            obtain ⟨hseen, hmx⟩ := hmax e heacc
            refine ⟨List.mem_append.mpr (Or.inl hseen), ?_⟩
            intro c' hc'
            rcases List.mem_append.mp hc' with hmem2 | hmem2
            · exact hmx c' hmem2
            · rw [List.mem_singleton] at hmem2
              intro hp'
              rw [hmem2] at hp'
              exact absurd hp'.symm (hpost e hp2)
      · intro c' hc'
        rcases List.mem_append.mp hc' with hmem2 | hmem2
        · obtain ⟨e', he', hpe⟩ := hcover c' hmem2
          by_cases hee : e' = existing
          · refine ⟨c, List.mem_append.mpr (Or.inr (List.mem_cons_self c post)), ?_⟩
            rw [← hpath, ← hee]
            exact hpe
          · have he'' : e' ∈ pre ++ post := by
              rw [hacc] at he'
              rcases List.mem_append.mp he' with h1 | h1
              · exact List.mem_append.mpr (Or.inl h1)
              · rcases List.mem_cons.mp h1 with h2 | h2
                · exact absurd h2 hee
                · exact List.mem_append.mpr (Or.inr h2)
            refine ⟨e', ?_, hpe⟩
            rcases List.mem_append.mp he'' with h1 | h1
            · exact List.mem_append.mpr (Or.inl h1)
            · exact List.mem_append.mpr (Or.inr (List.mem_cons_of_mem c h1))
        · rw [List.mem_singleton] at hmem2
          refine ⟨c, List.mem_append.mpr (Or.inr (List.mem_cons_self c post)), ?_⟩
          rw [hmem2]
    · rw [if_neg hsc]
      push_neg at hsc
      refine ⟨hdist, ?_, ?_⟩
      · intro e he
        obtain ⟨hseen, hmx⟩ := hmax e he
        refine ⟨List.mem_append.mpr (Or.inl hseen), ?_⟩
        intro c' hc'
        rcases List.mem_append.mp hc' with hmem2 | hmem2
        · exact hmx c' hmem2
        · rw [List.mem_singleton] at hmem2
          intro hp'
          rw [hmem2] at hp'
          have heq : e = existing :=
            distinctPaths_unique acc hdist e he existing hmem (hp'.symm.trans hpath.symm)
          rw [heq, hmem2]
          exact hsc
      · intro c' hc'
        rcases List.mem_append.mp hc' with hmem2 | hmem2
        · exact hcover c' hmem2
        · rw [List.mem_singleton] at hmem2
          rw [hmem2]
          exact ⟨existing, hmem, hpath⟩

/-- The fold invariant at the start. -/
theorem goodAcc_nil : GoodAcc [] [] := by
  refine ⟨List.Pairwise.nil, ?_, ?_⟩
  · intro e he
    exact absurd he (List.not_mem_nil e)
  · intro c hc
    exact absurd hc (List.not_mem_nil c)

/-- The fold invariant over the whole candidate list. -/
theorem goodAcc_foldl :
    ∀ (l seen acc : List Candidate), GoodAcc seen acc →
      GoodAcc (seen ++ l) (l.foldl updateCand acc) := by
  intro l
  induction l with
  | nil =>
    intro seen acc h
    simpa using h
  | cons c t ih =>
    intro seen acc h
    have h2 := ih (seen ++ [c]) (updateCand acc c) (goodAcc_step c seen acc h)
    rw [List.foldl_cons]
    have hs : seen ++ c :: t = (seen ++ [c]) ++ t := by simp
    rw [hs]
    exact h2

/-- C5: for every scored candidate list and every path occurring in it,
deduplication keeps exactly one entry for that path, that entry is one of the
original candidates, and its score is the maximum among all entries sharing
the path. -/
theorem dedupByPath_keeps_max (cands : List Candidate) (p : String)
    (hp : ∃ c ∈ cands, c.file.path = p) :
    ∃ e, (dedupByPath cands).filter (fun x => x.file.path == p) = [e] ∧
      e ∈ cands ∧ e.file.path = p ∧
      ∀ c ∈ cands, c.file.path = p → c.score ≤ e.score := by
  have hg : GoodAcc cands (dedupByPath cands) := by
    have h := goodAcc_foldl cands [] [] goodAcc_nil
    simpa [dedupByPath] using h
  obtain ⟨c0, hc0, hc0p⟩ := hp
  obtain ⟨hdist, hmax, hcover⟩ := hg
  obtain ⟨e, he, hep⟩ := hcover c0 hc0
  have hepp : e.file.path = p := hep.trans hc0p
  refine ⟨e, filter_path_unique p _ hdist e he hepp, (hmax e he).1, hepp, ?_⟩
  intro c hc hcp
  exact (hmax e he).2 c hc (hcp.trans hepp.symm)

/-- C5 (witness): two same-path entries, the maximum (score 2) survives. -/
theorem dedupByPath_keeps_max_witness :
    ∃ e, (dedupByPath demoCands).filter (fun x => x.file.path == "Ponto 1/a.pdf") = [e] ∧
      e ∈ demoCands ∧ e.file.path = "Ponto 1/a.pdf" ∧
      ∀ c ∈ demoCands, c.file.path = "Ponto 1/a.pdf" → c.score ≤ e.score :=
  dedupByPath_keeps_max demoCands "Ponto 1/a.pdf" ⟨⟨demoFileA, 1⟩, by decide, by decide⟩
